import Mathlib

/-!
Verification of `folly/algorithm/simd/detail/ContainsImpl.h`.

A shallow embedding of `containsImplStd`, `hasHandwrittenContains`,
`containsImplHandwritten` and `containsImpl`, together with models of the
collaborators they call (`std::memchr`, `std::wmemchr`, `std::find`,
`simdAnyOf`, `SimdCharPlatform::equal`).

Conventions.
* An unsigned element of type `T` is a `Nat` below `2 ^ (8 * sizeof T)`.
* A `char` / `wchar_t` unit is an `Int`; whether the unit type is signed is a
  parameter of the build target.
* A run of a function is an `Exec`: the `if constexpr` branch that executed,
  the collaborator calls it made, and its result (`none` when a collaborator
  was called outside its domain, i.e. undefined behaviour).
* The functions are embedded a second time in state-passing style (`...Run`),
  over a view into the memory of the caller; `containsImplRun_eq` relates the
  two embeddings.
-/

namespace folly.simd.detail

/-! ## Types -/

/-- The element types the templates are instantiated with: the `static_assert`
in `containsImplStd` reads "we should only get here for uint8/16/32/64". -/
inductive UIntT where
  | u8
  | u16
  | u32
  | u64
  deriving DecidableEq, Repr

/-- Value of `sizeof(T)`, in bytes. -/
def UIntT.sizeof : UIntT → Nat
  | .u8 => 1
  | .u16 => 2
  | .u32 => 4
  | .u64 => 8

/-- Number of values of `T`: `2 ^ (8 * sizeof(T))`. -/
def UIntT.card (T : UIntT) : Nat := 2 ^ (8 * T.sizeof)

/-- Modelled from the spec: `SimdCharPlatform` (folly/algorithm/simd/detail/SimdCharPlatform.h
is not part of the sources at hand). The platform capability descriptor
exposes a vector register type; `cardinal` is the number of `char` lanes of
that register. -/
structure SimdCharPlatform where
  cardinal : Nat
  deriving DecidableEq, Repr

/-- The build target, as far as the header depends on it. -/
structure Platform where
  /-- Value of `sizeof(wchar_t)`. -/
  sizeofWchar : Nat
  /-- Whether `char` is a signed type. -/
  charSigned : Bool
  /-- Whether `wchar_t` is a signed type. -/
  wcharSigned : Bool
  /-- The alias `SimdCharPlatform`; `none` stands for `void`. -/
  simdCharPlatform : Option SimdCharPlatform
  deriving DecidableEq, Repr

/-- A `folly::span<const T>`: a base pointer and an element count. `null` is
the empty view whose base pointer is null, `view elems` is a view with a
non-null base pointer over the elements `elems`. -/
inductive Span where
  | null
  | view (elems : List Nat)
  deriving DecidableEq, Repr

/-- The elements a span ranges over (`begin()` to `end()`). -/
def Span.elems : Span → List Nat
  | .null => []
  | .view es => es

/-- Method `span::size()`. -/
def Span.size (s : Span) : Nat := s.elems.length

/-- Method `span::empty()`. -/
def Span.empty (s : Span) : Bool := s.size == 0

/-- Method `span::data()`: `none` is the null pointer, `some buf` a pointer to
the first element of `buf`. -/
def Span.data : Span → Option (List Nat)
  | .null => none
  | .view es => some es

/-- Every element of the span is a value of type `T`. -/
def Span.InRange (T : UIntT) (s : Span) : Prop := ∀ e ∈ s.elems, e < T.card

instance (T : UIntT) (s : Span) : Decidable (s.InRange T) :=
  inferInstanceAs (Decidable (∀ e ∈ s.elems, e < T.card))

/-! ## Integer conversions -/

/-- Conversion `static_cast<U>(v)` of an unsigned value to an integer type `U`
of `bits` bits: the value of `U` congruent to `v` modulo `2 ^ bits`. -/
def staticCast (signed : Bool) (bits : Nat) (v : Nat) : Int :=
  if signed then
    (((v : Int) + 2 ^ (bits - 1)) % 2 ^ bits) - 2 ^ (bits - 1)
  else
    (v : Int) % 2 ^ bits

/-- Reading an object whose bit pattern is the unsigned number `b` through a
pointer to an integer type `U` of `bits` bits (`reinterpret_cast`): the bits
are unchanged, a signed `U` reads them as two-s complement. -/
def reinterpretUnit (signed : Bool) (bits : Nat) (b : Nat) : Int :=
  if signed && decide (2 ^ (bits - 1) ≤ b) then (b : Int) - 2 ^ bits else (b : Int)

/-- The pointer `reinterpret_cast<const U*>(haystack.data())`. -/
def reinterpretData (signed : Bool) (bits : Nat) (data : Option (List Nat)) :
    Option (List Int) :=
  data.map (List.map (reinterpretUnit signed bits))

/-- The range of `folly::reinterpret_span_cast<const char>(haystack)`. -/
def reinterpretSpanCast (signed : Bool) (haystack : Span) : List Int :=
  haystack.elems.map (reinterpretUnit signed 8)

/-! ## Collaborators -/

/-- Unit comparison of `std::memchr`: both the unit read and the wanted value
are converted to `unsigned char` and compared. -/
def memchrUnitEq (x ch : Int) : Bool := x % 256 == ch % 256

/-- Sequential scan of `std::memchr`: `some (some i)` a pointer to unit `i`,
`some none` the null pointer, `none` a read past the end of the object. -/
def memchrFrom (ch : Int) : List Int → Nat → Nat → Option (Option Nat)
  | _, 0, _ => some none
  | [], _ + 1, _ => none
  | x :: xs, n + 1, i =>
    if memchrUnitEq x ch then some (some i) else memchrFrom ch xs n (i + 1)

/-- Library function `std::memchr(ptr, ch, count)`; undefined (`none`) for a
null `ptr`. -/
def memchr (ptr : Option (List Int)) (ch : Int) (count : Nat) : Option (Option Nat) :=
  match ptr with
  | none => none
  | some buf => memchrFrom ch buf count 0

/-- Unit comparison of `std::wmemchr`: wide units are compared as they are. -/
def wmemchrUnitEq (x ch : Int) : Bool := x == ch

/-- Sequential scan of `std::wmemchr`, with the results of `memchrFrom`. -/
def wmemchrFrom (ch : Int) : List Int → Nat → Nat → Option (Option Nat)
  | _, 0, _ => some none
  | [], _ + 1, _ => none
  | x :: xs, n + 1, i =>
    if wmemchrUnitEq x ch then some (some i) else wmemchrFrom ch xs n (i + 1)

/-- Library function `std::wmemchr(ptr, ch, count)`; undefined (`none`) for a
null `ptr`. -/
def wmemchr (ptr : Option (List Int)) (ch : Int) (count : Nat) : Option (Option Nat) :=
  match ptr with
  | none => none
  | some buf => wmemchrFrom ch buf count 0

/-- Library function `std::find(first, last, value)` over a range given by
its elements: the offset from `first` of the first element equal to `value`,
or the offset of `last` (the length) when there is none. -/
def stdFind : List Nat → Nat → Nat
  | [], _ => 0
  | x :: xs, value => if x == value then 0 else stdFind xs value + 1

/-- Modelled from the spec: `SimdCharPlatform::equal(reg, c)` (SimdCharPlatform.h is
not part of the sources at hand): the lane-equality predicate that broadcasts
`c` and compares it against each lane of the register. -/
def SimdCharPlatform.equal (x : List Int) (c : Int) : List Bool :=
  x.map (fun lane => lane == c)

/-- Whether a register-wide comparison reports a lane match. -/
def anyLane (mask : List Bool) : Bool := mask.any id

/-- Tests `k` consecutive full registers of `W` lanes from the front of `r`,
in order. -/
def anyOfRegisters (W : Nat) (p : List Int → List Bool) : Nat → List Int → Bool
  | 0, _ => false
  | k + 1, r => anyLane (p (r.take W)) || anyOfRegisters W p k (r.drop W)

/-- Runs `g` iterations of the unrolled main loop, each over `U` registers. -/
def anyOfUnrolled (W U : Nat) (p : List Int → List Bool) : Nat → List Int → Bool
  | 0, _ => false
  | g + 1, r => anyOfRegisters W p U r || anyOfUnrolled W U p g (r.drop (U * W))

/-- Modelled from the spec: `simdAnyOf<Platform, unrolling>(f, l, p)`
(folly/algorithm/simd/detail/SimdAnyOf.h is not part of the sources at hand).
The range is partitioned into full register-width chunks plus a scalar
remainder; the full chunks are tested with the predicate in groups of the unroll
factor `U`, then one by one, and the remaining elements are scanned
individually; the answer is `true` as soon as a test reports a lane match.
`W` is the register width in lanes. -/
def simdAnyOf (W U : Nat) (range : List Int) (p : List Int → List Bool) : Bool :=
  let nRegs := range.length / W
  let nGroups := nRegs / U
  anyOfUnrolled W U p nGroups range
    || anyOfRegisters W p (nRegs % U) (range.drop (nGroups * U * W))
    || (range.drop (nRegs * W)).any (fun x => anyLane (p [x]))

/-- The scan the spec measures `simdAnyOf` against ("scanning every byte
exactly once with the given predicate"): each unit of the range is put to the
predicate on its own, once, from first to last. -/
def scanEachOnce (range : List Int) (p : List Int → List Bool) : Bool :=
  range.any (fun x => anyLane (p [x]))

/-! ## Runs -/

/-- The `if constexpr` branch a call ends up in. -/
inductive Path where
  /-- Function `containsImplHandwritten`. -/
  | handwritten
  /-- The `sizeof(T) == 1` branch of `containsImplStd`. -/
  | stdByte
  /-- The `sizeof(T) == sizeof(wchar_t)` branch of `containsImplStd`. -/
  | stdWide
  /-- The final `else` branch of `containsImplStd`. -/
  | stdFind
  deriving DecidableEq, Repr

/-- A call to a collaborator: for the two native primitives whether the
pointer passed is non-null, and for all of them the number of units of the
range passed. -/
inductive Call where
  | memchr (nonNull : Bool) (count : Nat)
  | wmemchr (nonNull : Bool) (count : Nat)
  | find (count : Nat)
  | simdAnyOf (count : Nat)
  deriving DecidableEq, Repr

/-- What a call did: the branch taken, the collaborator calls made in order,
and the value returned (`none`: a collaborator was called outside its
domain). -/
structure Exec where
  path : Path
  calls : List Call
  result : Option Bool
  deriving DecidableEq, Repr

/-! ## The header -/

/-- The `sizeof(T) == 1` branch of `containsImplStd`. -/
def containsImplStdByte (P : Platform) (haystack : Span) (needle : Nat) : Exec :=
  let ptr := reinterpretData P.charSigned 8 haystack.data
  let castNeedle := staticCast P.charSigned 8 needle
  if haystack.empty then
    { path := .stdByte, calls := [], result := some false }
  else
    { path := .stdByte
      calls := [.memchr ptr.isSome haystack.size]
      result := (memchr ptr castNeedle haystack.size).map (fun r => r != none) }

/-- The `sizeof(T) == sizeof(wchar_t)` branch of `containsImplStd`. -/
def containsImplStdWide (P : Platform) (haystack : Span) (needle : Nat) : Exec :=
  let ptr := reinterpretData P.wcharSigned (8 * P.sizeofWchar) haystack.data
  let castNeedle := staticCast P.wcharSigned (8 * P.sizeofWchar) needle
  if haystack.empty then
    { path := .stdWide, calls := [], result := some false }
  else
    { path := .stdWide
      calls := [.wmemchr ptr.isSome haystack.size]
      result := (wmemchr ptr castNeedle haystack.size).map (fun r => r != none) }

/-- The final `else` branch of `containsImplStd`: the iterator returned by
`std::find` is compared with `haystack.end()`. -/
def containsImplStdFind (haystack : Span) (needle : Nat) : Exec :=
  { path := .stdFind
    calls := [.find haystack.size]
    result := some (stdFind haystack.elems needle != haystack.size) }

/-- Function `containsImplStd<T>(haystack, needle)`: the `if constexpr` chain
picks the branch that is instantiated. -/
def containsImplStd (P : Platform) (T : UIntT) (haystack : Span) (needle : Nat) : Exec :=
  if T.sizeof = 1 then
    containsImplStdByte P haystack needle
  else if T.sizeof = P.sizeofWchar then
    containsImplStdWide P haystack needle
  else
    containsImplStdFind haystack needle

/-- Function `hasHandwrittenContains<T>()`. -/
def hasHandwrittenContains (P : Platform) (T : UIntT) : Bool :=
  decide (T = .u8) && !(P.simdCharPlatform == none)

/-- Function `containsImplHandwritten<T>(haystack, needle)`, for `T = std::uint8_t`
(the `static_assert`) and `SimdCharPlatform = S`. -/
def containsImplHandwritten (P : Platform) (S : SimdCharPlatform) (haystack : Span)
    (needle : Nat) : Exec :=
  let as_chars := reinterpretSpanCast P.charSigned haystack
  { path := .handwritten
    calls := [.simdAnyOf as_chars.length]
    result := some (simdAnyOf S.cardinal 4 as_chars
      (fun x => SimdCharPlatform.equal x (staticCast P.charSigned 8 needle))) }

/-- Function `containsImpl<T>(haystack, needle)`. In the branch guarded by
`hasHandwrittenContains<T>()` the alias `SimdCharPlatform` is not `void`. -/
def containsImpl (P : Platform) (T : UIntT) (haystack : Span) (needle : Nat) : Exec :=
  if h : hasHandwrittenContains P T = true then
    containsImplHandwritten P
      (P.simdCharPlatform.get (by
        unfold hasHandwrittenContains at h
        cases hS : P.simdCharPlatform <;> simp_all))
      haystack needle
  else
    containsImplStd P T haystack needle

/-! ## Strategies and call preconditions -/

/-- The three scanning strategies the selector chooses among. -/
inductive Strategy where
  | vectorizedByte
  | nativeWidth
  | genericLinear
  deriving DecidableEq, Repr

/-- The strategy a branch of the header implements. -/
def Path.strategy : Path → Strategy
  | .handwritten => .vectorizedByte
  | .stdByte => .nativeWidth
  | .stdWide => .nativeWidth
  | .stdFind => .genericLinear

/-- Whether a call is to one of the native scan primitives. -/
def Call.isNative : Call → Bool
  | .memchr _ _ => true
  | .wmemchr _ _ => true
  | .find _ => false
  | .simdAnyOf _ => false

/-- Whether a call stays clear of an empty, possibly null view: a native scan
primitive gets a non-null pointer and at least one unit; `std::find` and
`simdAnyOf` take every range. -/
def Call.onNonEmptyView : Call → Bool
  | .memchr nonNull count => nonNull && decide (1 ≤ count)
  | .wmemchr nonNull count => nonNull && decide (1 ≤ count)
  | .find _ => true
  | .simdAnyOf _ => true

/-! ## Calls against the memory of the caller -/

/-- The memory of the caller: the element stored at each address. -/
abbrev Memory := List Nat

/-- A span as the caller holds it: the base address (`none` is the null
pointer) and the element count. -/
structure View where
  base : Option Nat
  size : Nat
  deriving DecidableEq, Repr

/-- The span a view denotes in a memory. -/
def View.load (m : Memory) (v : View) : Span :=
  match v.base with
  | none => .null
  | some a => .view ((m.drop a).take v.size)

/-- Whether a view lies within a memory: a null view is empty, a view with
base address `a` ends at or before the end of the memory. -/
def View.within (m : Memory) (v : View) : Bool :=
  match v.base with
  | none => v.size == 0
  | some a => decide (a + v.size ≤ m.length)

/-- What a pointer to const points at: the memory from that address on
(`none` for the null pointer). -/
def unitsAt (m : Memory) (ptr : Option Nat) : Option (List Nat) :=
  ptr.map (fun a => m.drop a)

/-- The elements of the iterator range that starts at `first` and has `count`
elements. -/
def rangeAt (m : Memory) (first : Option Nat) (count : Nat) : List Nat :=
  match first with
  | none => []
  | some a => (m.drop a).take count

/-- Library function `std::memchr` called on an address of the memory: the
value returned and the memory afterwards. Its parameter is a pointer to const
and it reads the units one after the other. -/
def memchrRun (signed : Bool) (ptr : Option Nat) (ch : Int) (count : Nat) (m : Memory) :
    Option (Option Nat) × Memory :=
  (memchr (reinterpretData signed 8 (unitsAt m ptr)) ch count, m)

/-- Library function `std::wmemchr` called on an address of the memory, for a
`wchar_t` of `bits` bits; as `memchrRun`. -/
def wmemchrRun (signed : Bool) (bits : Nat) (ptr : Option Nat) (ch : Int) (count : Nat)
    (m : Memory) : Option (Option Nat) × Memory :=
  (wmemchr (reinterpretData signed bits (unitsAt m ptr)) ch count, m)

/-- Library function `std::find` called on iterators to const into the
memory: the offset returned and the memory afterwards. -/
def stdFindRun (first : Option Nat) (count : Nat) (value : Nat) (m : Memory) :
    Nat × Memory :=
  (stdFind (rangeAt m first count) value, m)

/-- Modelled from the spec: `simdAnyOf` (SimdAnyOf.h is not part of the sources
at hand) called on pointers to const `char` into the memory: the answer and
the memory afterwards. The spec has the primitive read the range it is given
and nothing else. -/
def simdAnyOfRun (signed : Bool) (W U : Nat) (f : Option Nat) (count : Nat)
    (p : List Int → List Bool) (m : Memory) : Bool × Memory :=
  (simdAnyOf W U ((rangeAt m f count).map (reinterpretUnit signed 8)) p, m)

/-- The `sizeof(T) == 1` branch of `containsImplStd` in state-passing style:
the run and the memory afterwards. -/
def containsImplStdByteRun (P : Platform) (haystack : View) (needle : Nat) (m : Memory) :
    Exec × Memory :=
  let ptr := haystack.base
  let castNeedle := staticCast P.charSigned 8 needle
  if haystack.size == 0 then
    ({ path := .stdByte, calls := [], result := some false }, m)
  else
    let r := memchrRun P.charSigned ptr castNeedle haystack.size m
    ({ path := .stdByte
       calls := [.memchr ptr.isSome haystack.size]
       result := r.1.map (fun q => q != none) }, r.2)

/-- The `sizeof(T) == sizeof(wchar_t)` branch of `containsImplStd` in
state-passing style. -/
def containsImplStdWideRun (P : Platform) (haystack : View) (needle : Nat) (m : Memory) :
    Exec × Memory :=
  let ptr := haystack.base
  let castNeedle := staticCast P.wcharSigned (8 * P.sizeofWchar) needle
  if haystack.size == 0 then
    ({ path := .stdWide, calls := [], result := some false }, m)
  else
    let r := wmemchrRun P.wcharSigned (8 * P.sizeofWchar) ptr castNeedle haystack.size m
    ({ path := .stdWide
       calls := [.wmemchr ptr.isSome haystack.size]
       result := r.1.map (fun q => q != none) }, r.2)

/-- The final `else` branch of `containsImplStd` in state-passing style. -/
def containsImplStdFindRun (haystack : View) (needle : Nat) (m : Memory) : Exec × Memory :=
  let r := stdFindRun haystack.base haystack.size needle m
  ({ path := .stdFind
     calls := [.find haystack.size]
     result := some (r.1 != haystack.size) }, r.2)

/-- Function `containsImplStd<T>(haystack, needle)` in state-passing style. -/
def containsImplStdRun (P : Platform) (T : UIntT) (haystack : View) (needle : Nat)
    (m : Memory) : Exec × Memory :=
  if T.sizeof = 1 then
    containsImplStdByteRun P haystack needle m
  else if T.sizeof = P.sizeofWchar then
    containsImplStdWideRun P haystack needle m
  else
    containsImplStdFindRun haystack needle m

/-- Function `containsImplHandwritten<T>(haystack, needle)` in state-passing
style; `as_chars` has the base and the size of `haystack`, the elements being
one byte wide. -/
def containsImplHandwrittenRun (P : Platform) (S : SimdCharPlatform) (haystack : View)
    (needle : Nat) (m : Memory) : Exec × Memory :=
  let as_chars := haystack
  let r := simdAnyOfRun P.charSigned S.cardinal 4 as_chars.base as_chars.size
    (fun x => SimdCharPlatform.equal x (staticCast P.charSigned 8 needle)) m
  ({ path := .handwritten
     calls := [.simdAnyOf as_chars.size]
     result := some r.1 }, r.2)

/-- Function `containsImpl<T>(haystack, needle)` in state-passing style: the
memory afterwards is the one the function it calls leaves. -/
def containsImplRun (P : Platform) (T : UIntT) (haystack : View) (needle : Nat)
    (m : Memory) : Exec × Memory :=
  if h : hasHandwrittenContains P T = true then
    containsImplHandwrittenRun P
      (P.simdCharPlatform.get (by
        unfold hasHandwrittenContains at h
        cases hS : P.simdCharPlatform <;> simp_all))
      haystack needle m
  else
    containsImplStdRun P T haystack needle m

/-- A sequence of calls of `containsImpl`, each with its own element type,
view and needle, every call running in the memory the one before it left:
the memory after the last one. -/
def containsImplRuns (P : Platform) : List (UIntT × View × Nat) → Memory → Memory
  | [], m => m
  | (T, v, needle) :: rest, m => containsImplRuns P rest (containsImplRun P T v needle m).2

/-! ## Sample build targets -/

/-- A target with signed `char`, a signed 4-byte `wchar_t` and a 16-lane
vector register. -/
def targetSimdWide4 : Platform :=
  { sizeofWchar := 4, charSigned := true, wcharSigned := true,
    simdCharPlatform := some { cardinal := 16 } }

/-- A target with signed `char`, an unsigned 2-byte `wchar_t` and no vector
capability. -/
def targetScalarWide2 : Platform :=
  { sizeofWchar := 2, charSigned := true, wcharSigned := false, simdCharPlatform := none }

/-- A target with unsigned `char`, a signed 4-byte `wchar_t` and no vector
capability. -/
def targetScalarWide4 : Platform :=
  { sizeofWchar := 4, charSigned := false, wcharSigned := true, simdCharPlatform := none }

/-! ## Lemmas on the integer conversions -/

theorem two_pow_pred_double {bits : Nat} (hb : 0 < bits) :
    (2 : Int) ^ bits = 2 * 2 ^ (bits - 1) := by
  obtain ⟨k, rfl⟩ : ∃ k, bits = k + 1 := ⟨bits - 1, by omega⟩
  simp [pow_succ, mul_comm]

theorem staticCast_unsigned {bits v : Nat} (hv : v < 2 ^ bits) :
    staticCast false bits v = (v : Int) := by
  have h : (v : Int) < 2 ^ bits := by exact_mod_cast hv
  simp only [staticCast, Bool.false_eq_true, if_false]
  exact Int.emod_eq_of_lt (by omega) h

theorem staticCast_signed_low {bits v : Nat} (hb : 0 < bits) (hv : v < 2 ^ (bits - 1)) :
    staticCast true bits v = (v : Int) := by
  have h : (v : Int) < 2 ^ (bits - 1) := by exact_mod_cast hv
  have h2 := two_pow_pred_double hb
  have hpos : (0 : Int) < 2 ^ (bits - 1) := by positivity
  simp only [staticCast, if_true]
  rw [Int.emod_eq_of_lt (by omega) (by omega)]
  omega

theorem staticCast_signed_high {bits v : Nat} (hb : 0 < bits) (hlo : 2 ^ (bits - 1) ≤ v)
    (hv : v < 2 ^ bits) : staticCast true bits v = (v : Int) - 2 ^ bits := by
  have h : (v : Int) < 2 ^ bits := by exact_mod_cast hv
  have hl : (2 : Int) ^ (bits - 1) ≤ v := by exact_mod_cast hlo
  have h2 := two_pow_pred_double hb
  simp only [staticCast, if_true]
  have : ((v : Int) + 2 ^ (bits - 1)) % 2 ^ bits = (v : Int) + 2 ^ (bits - 1) - 2 ^ bits := by
    rw [Int.emod_eq_sub_self_emod]
    exact Int.emod_eq_of_lt (by omega) (by omega)
  rw [this]
  omega

/-- The cast needle is the value the reinterpreted pattern of the needle reads as. -/
theorem staticCast_eq_reinterpretUnit (signed : Bool) {bits v : Nat} (hb : 0 < bits)
    (hv : v < 2 ^ bits) : staticCast signed bits v = reinterpretUnit signed bits v := by
  cases signed
  · simp [staticCast_unsigned hv, reinterpretUnit]
  · by_cases hlo : 2 ^ (bits - 1) ≤ v
    · simp [staticCast_signed_high hb hlo hv, reinterpretUnit, hlo]
    · have hlt : v < 2 ^ (bits - 1) := Nat.lt_of_not_le hlo
      simp [staticCast_signed_low hb hlt, reinterpretUnit, hlo]

theorem reinterpretUnit_inj (signed : Bool) {bits e n : Nat} (he : e < 2 ^ bits)
    (hn : n < 2 ^ bits) :
    reinterpretUnit signed bits e = reinterpretUnit signed bits n ↔ e = n := by
  have he2 : (e : Int) < 2 ^ bits := by exact_mod_cast he
  have hn2 : (n : Int) < 2 ^ bits := by exact_mod_cast hn
  constructor
  · intro h
    unfold reinterpretUnit at h
    split at h <;> split at h <;> omega
  · rintro rfl; rfl

theorem reinterpretUnit_emod (signed : Bool) {e : Nat} (he : e < 256) :
    reinterpretUnit signed 8 e % 256 = (e : Int) := by
  unfold reinterpretUnit
  split <;> omega

/-! ## Lemmas on the collaborators -/

theorem memchrFrom_length (ch : Int) (buf : List Int) (i : Nat) :
    (memchrFrom ch buf buf.length i).map (fun r => r != none)
      = some (buf.any (fun x => memchrUnitEq x ch)) := by
  induction buf generalizing i with
  | nil => simp [memchrFrom]
  | cons x xs ih =>
    simp only [List.length_cons, memchrFrom, List.any_cons]
    by_cases hx : memchrUnitEq x ch = true
    · simp [hx]
    · simp [hx, ih]

theorem wmemchrFrom_length (ch : Int) (buf : List Int) (i : Nat) :
    (wmemchrFrom ch buf buf.length i).map (fun r => r != none)
      = some (buf.any (fun x => wmemchrUnitEq x ch)) := by
  induction buf generalizing i with
  | nil => simp [wmemchrFrom]
  | cons x xs ih =>
    simp only [List.length_cons, wmemchrFrom, List.any_cons]
    by_cases hx : wmemchrUnitEq x ch = true
    · simp [hx]
    · simp [hx, ih]

theorem stdFind_ne_length (l : List Nat) (v : Nat) :
    (stdFind l v != l.length) = l.any (fun e => e == v) := by
  induction l with
  | nil => simp [stdFind]
  | cons x xs ih =>
    simp only [stdFind, List.length_cons, List.any_cons]
    by_cases hx : x = v
    · simp [hx]
    · rw [← ih]
      simp [hx]

theorem anyLane_equal (x : List Int) (c : Int) :
    anyLane (SimdCharPlatform.equal x c) = x.any (fun lane => lane == c) := by
  induction x with
  | nil => rfl
  | cons a as ih =>
    simp only [anyLane, SimdCharPlatform.equal, List.map_cons, List.any_cons, id] at ih ⊢
    rw [ih]

theorem anyOfRegisters_equal (W : Nat) (c : Int) (k : Nat) (r : List Int) :
    anyOfRegisters W (fun x => SimdCharPlatform.equal x c) k r
      = (r.take (k * W)).any (fun lane => lane == c) := by
  induction k generalizing r with
  | zero => simp [anyOfRegisters]
  | succ k ih =>
    simp only [anyOfRegisters, anyLane_equal, ih]
    rw [Nat.succ_mul, Nat.add_comm (k * W) W, List.take_add, List.any_append]

theorem anyOfUnrolled_equal (W U : Nat) (c : Int) (g : Nat) (r : List Int) :
    anyOfUnrolled W U (fun x => SimdCharPlatform.equal x c) g r
      = (r.take (g * (U * W))).any (fun lane => lane == c) := by
  induction g generalizing r with
  | zero => simp [anyOfUnrolled]
  | succ g ih =>
    simp only [anyOfUnrolled, anyOfRegisters_equal, ih]
    rw [Nat.succ_mul, Nat.add_comm (g * (U * W)) (U * W), List.take_add, List.any_append]

/-- The chunked scan is the scan of every unit once. -/
theorem simdAnyOf_equal (W U : Nat) (range : List Int) (c : Int) :
    simdAnyOf W U range (fun x => SimdCharPlatform.equal x c)
      = range.any (fun lane => lane == c) := by
  unfold simdAnyOf
  simp only [anyOfUnrolled_equal, anyOfRegisters_equal, anyLane_equal, List.any_cons,
    List.any_nil, Bool.or_false]
  have hsplit : range.length / W * W
      = range.length / W / U * U * W + range.length / W % U * W := by
    rw [← Nat.add_mul, Nat.div_add_mod']
  rw [hsplit, ← List.drop_drop, ← Nat.mul_assoc, ← List.any_append, ← List.any_append,
    List.append_assoc, List.take_append_drop, List.take_append_drop]

/-! ## Unit comparisons on reinterpreted elements -/

theorem memchrUnitEq_reinterpret (signed : Bool) {e n : Nat} (he : e < 256) (hn : n < 256) :
    memchrUnitEq (reinterpretUnit signed 8 e) (staticCast signed 8 n) = (e == n) := by
  rw [staticCast_eq_reinterpretUnit signed (by decide) (by simpa using hn)]
  simp only [memchrUnitEq, reinterpretUnit_emod signed he, reinterpretUnit_emod signed hn]
  by_cases h : e = n <;> simp [h]

theorem wmemchrUnitEq_reinterpret (signed : Bool) {bits e n : Nat} (hb : 0 < bits)
    (he : e < 2 ^ bits) (hn : n < 2 ^ bits) :
    wmemchrUnitEq (reinterpretUnit signed bits e) (staticCast signed bits n)
      = (e == n) := by
  rw [staticCast_eq_reinterpretUnit signed hb hn]
  by_cases h : e = n
  · simp [wmemchrUnitEq, h]
  · have := (reinterpretUnit_inj signed he hn).not.mpr h
    simp [wmemchrUnitEq, h, this]

theorem any_congr_mem {α : Type} (l : List α) (f g : α → Bool)
    (h : ∀ a ∈ l, f a = g a) : l.any f = l.any g := by
  induction l with
  | nil => rfl
  | cons a as ih =>
    simp only [List.any_cons]
    rw [h a (List.mem_cons_self a as), ih (fun b hb => h b (List.mem_cons_of_mem a hb))]

theorem any_map_fun {α β : Type} (f : α → β) (p : β → Bool) (l : List α) :
    (l.map f).any p = l.any (fun a => p (f a)) := by
  induction l with
  | nil => rfl
  | cons a as ih => simp only [List.map_cons, List.any_cons, ih]

theorem any_beq_eq_decide_mem (l : List Nat) (n : Nat) :
    l.any (fun e => e == n) = decide (n ∈ l) := by
  induction l with
  | nil => simp
  | cons a as ih =>
    simp only [List.any_cons, ih, List.mem_cons]
    by_cases h : a = n
    · simp [h]
    · have h2 : ¬ n = a := fun e => h e.symm
      simp [h, h2]

theorem any_memchrUnitEq (signed : Bool) (l : List Nat) {n : Nat}
    (hl : ∀ e ∈ l, e < 256) (hn : n < 256) :
    (l.map (reinterpretUnit signed 8)).any (fun x => memchrUnitEq x (staticCast signed 8 n))
      = decide (n ∈ l) := by
  rw [any_map_fun, ← any_beq_eq_decide_mem]
  apply any_congr_mem
  intro e he
  exact memchrUnitEq_reinterpret signed (hl e he) hn

theorem any_wmemchrUnitEq (signed : Bool) {bits : Nat} (hb : 0 < bits) (l : List Nat)
    {n : Nat} (hl : ∀ e ∈ l, e < 2 ^ bits) (hn : n < 2 ^ bits) :
    (l.map (reinterpretUnit signed bits)).any
        (fun x => wmemchrUnitEq x (staticCast signed bits n))
      = decide (n ∈ l) := by
  rw [any_map_fun, ← any_beq_eq_decide_mem]
  apply any_congr_mem
  intro e he
  exact wmemchrUnitEq_reinterpret signed hb (hl e he) hn

theorem any_laneEq (signed : Bool) (l : List Nat) {n : Nat}
    (hl : ∀ e ∈ l, e < 256) (hn : n < 256) :
    (l.map (reinterpretUnit signed 8)).any (fun lane => lane == staticCast signed 8 n)
      = decide (n ∈ l) :=
  any_wmemchrUnitEq signed (by decide) l hl hn

/-! ## Results of the branches -/

theorem card_u8 : UIntT.card .u8 = 256 := by decide

theorem card_of_sizeof_one {T : UIntT} (h : T.sizeof = 1) : T.card = 256 := by
  cases T <;> simp_all [UIntT.sizeof, UIntT.card]

theorem sizeof_pos (T : UIntT) : 0 < T.sizeof := by
  cases T <;> decide

theorem containsImplStdByte_result (P : Platform) (haystack : Span) {needle : Nat}
    (hh : ∀ e ∈ haystack.elems, e < 256) (hn : needle < 256) :
    (containsImplStdByte P haystack needle).result
      = some (decide (needle ∈ haystack.elems)) := by
  cases haystack with
  | null => simp [containsImplStdByte, Span.empty, Span.size, Span.elems]
  | view es =>
    cases es with
    | nil => simp [containsImplStdByte, Span.empty, Span.size, Span.elems]
    | cons a as =>
      have hlen : (List.map (reinterpretUnit P.charSigned 8) (a :: as)).length
          = (a :: as).length := List.length_map _ _
      simp only [containsImplStdByte, Span.empty, Span.size, Span.elems, Span.data,
        reinterpretData, Option.map_some', memchr]
      rw [if_neg (by simp), ← hlen, memchrFrom_length]
      rw [any_memchrUnitEq P.charSigned (a :: as) hh hn]

theorem containsImplStdWide_result (P : Platform) (hw : 0 < P.sizeofWchar)
    (haystack : Span) {needle : Nat}
    (hh : ∀ e ∈ haystack.elems, e < 2 ^ (8 * P.sizeofWchar))
    (hn : needle < 2 ^ (8 * P.sizeofWchar)) :
    (containsImplStdWide P haystack needle).result
      = some (decide (needle ∈ haystack.elems)) := by
  cases haystack with
  | null => simp [containsImplStdWide, Span.empty, Span.size, Span.elems]
  | view es =>
    cases es with
    | nil => simp [containsImplStdWide, Span.empty, Span.size, Span.elems]
    | cons a as =>
      have hlen : (List.map (reinterpretUnit P.wcharSigned (8 * P.sizeofWchar)) (a :: as)).length
          = (a :: as).length := List.length_map _ _
      simp only [containsImplStdWide, Span.empty, Span.size, Span.elems, Span.data,
        reinterpretData, Option.map_some', wmemchr]
      rw [if_neg (by simp), ← hlen, wmemchrFrom_length]
      rw [any_wmemchrUnitEq P.wcharSigned (by omega) (a :: as) hh hn]

theorem containsImplStdFind_result (haystack : Span) (needle : Nat) :
    (containsImplStdFind haystack needle).result
      = some (decide (needle ∈ haystack.elems)) := by
  simp only [containsImplStdFind, Span.size, stdFind_ne_length, any_beq_eq_decide_mem]

theorem containsImplHandwritten_result (P : Platform) (S : SimdCharPlatform)
    (haystack : Span) {needle : Nat}
    (hh : ∀ e ∈ haystack.elems, e < 256) (hn : needle < 256) :
    (containsImplHandwritten P S haystack needle).result
      = some (decide (needle ∈ haystack.elems)) := by
  simp only [containsImplHandwritten, reinterpretSpanCast, simdAnyOf_equal,
    any_laneEq P.charSigned haystack.elems hh hn]

theorem containsImplStd_result (P : Platform) (T : UIntT) (haystack : Span) {needle : Nat}
    (hh : haystack.InRange T) (hn : needle < T.card) :
    (containsImplStd P T haystack needle).result
      = some (decide (needle ∈ haystack.elems)) := by
  unfold containsImplStd
  split
  · next h1 =>
    rw [card_of_sizeof_one h1] at hn
    have hh2 : ∀ e ∈ haystack.elems, e < 256 := by
      intro e he; have := hh e he; rwa [card_of_sizeof_one h1] at this
    exact containsImplStdByte_result P haystack hh2 hn
  · split
    · next h1 h2 =>
      have hw : 0 < P.sizeofWchar := h2 ▸ sizeof_pos T
      have hc : T.card = 2 ^ (8 * P.sizeofWchar) := by rw [UIntT.card, h2]
      exact containsImplStdWide_result P hw haystack (fun e he => hc ▸ hh e he) (hc ▸ hn)
    · exact containsImplStdFind_result haystack needle

theorem containsImpl_result (P : Platform) (T : UIntT) (haystack : Span) {needle : Nat}
    (hh : haystack.InRange T) (hn : needle < T.card) :
    (containsImpl P T haystack needle).result
      = some (decide (needle ∈ haystack.elems)) := by
  unfold containsImpl
  split
  · next h =>
    have hT : T = .u8 := by
      unfold hasHandwrittenContains at h
      simp at h
      exact h.1
    subst hT
    exact containsImplHandwritten_result P _ haystack hh hn
  · exact containsImplStd_result P T haystack hh hn

/-! ## Further lemmas on the header -/

theorem hasHandwrittenContains_iff (P : Platform) (T : UIntT) :
    hasHandwrittenContains P T = true ↔ T = .u8 ∧ P.simdCharPlatform.isSome = true := by
  unfold hasHandwrittenContains
  cases hS : P.simdCharPlatform <;> simp

theorem sizeof_eq_one_iff (T : UIntT) : T.sizeof = 1 ↔ T = .u8 := by
  cases T <;> simp [UIntT.sizeof]

theorem containsImpl_of_handwritten {P : Platform} {T : UIntT} {S : SimdCharPlatform}
    (hT : T = .u8) (hS : P.simdCharPlatform = some S) (haystack : Span) (needle : Nat) :
    containsImpl P T haystack needle = containsImplHandwritten P S haystack needle := by
  have h : hasHandwrittenContains P T = true := by
    rw [hasHandwrittenContains_iff]; simp [hT, hS]
  unfold containsImpl
  rw [dif_pos h]
  congr 1
  simp [hS]

theorem containsImpl_of_not_handwritten {P : Platform} {T : UIntT}
    (h : ¬ (T = .u8 ∧ P.simdCharPlatform.isSome = true)) (haystack : Span) (needle : Nat) :
    containsImpl P T haystack needle = containsImplStd P T haystack needle := by
  have h2 : ¬ hasHandwrittenContains P T = true := by
    rw [hasHandwrittenContains_iff]; exact h
  unfold containsImpl
  rw [dif_neg h2]

theorem empty_iff_elems (haystack : Span) : haystack.empty = true ↔ haystack.elems = [] := by
  simp [Span.empty, Span.size]

/-- C1: for every element type (width 1, 2, 4 or 8 bytes), every build target
(vector capability present or absent, any wide-character width, in particular
2 and 4), every haystack and needle of that type, `containsImpl` returns
`true` if and only if some element of the haystack equals the needle, and
returns `false` whenever no element equals the needle. -/
theorem containsImpl_true_iff_exists (P : Platform) (T : UIntT) (haystack : Span)
    (needle : Nat) (hh : haystack.InRange T) (hn : needle < T.card) :
    ((containsImpl P T haystack needle).result = some true
        ↔ ∃ e ∈ haystack.elems, e = needle)
      ∧ ((∀ e ∈ haystack.elems, e ≠ needle)
        → (containsImpl P T haystack needle).result = some false) := by
  rw [containsImpl_result P T haystack hh hn]
  constructor
  · simp
  · intro h
    have : needle ∉ haystack.elems := fun hm => h needle hm rfl
    simp [this]

/-- Witness of C1: the byte haystack `[0x00, 0xFF, 0x10]` gives `true` for the
needle `0xFF` and `false` for the needle `0x01`, with and without the vector
capability. -/
theorem containsImpl_true_iff_exists_witness :
    (Span.view [0x00, 0xFF, 0x10]).InRange .u8 ∧ 0xFF < UIntT.card .u8
      ∧ 0x01 < UIntT.card .u8
      ∧ (containsImpl targetSimdWide4 .u8 (.view [0x00, 0xFF, 0x10]) 0xFF).result = some true
      ∧ (containsImpl targetScalarWide2 .u8 (.view [0x00, 0xFF, 0x10]) 0xFF).result = some true
      ∧ (containsImpl targetSimdWide4 .u8 (.view [0x00, 0xFF, 0x10]) 0x01).result = some false
      ∧ (containsImpl targetScalarWide2 .u8 (.view [0x00, 0xFF, 0x10]) 0x01).result
          = some false :=
  ⟨by decide, by decide, by decide,
    (containsImpl_true_iff_exists targetSimdWide4 .u8 (.view [0x00, 0xFF, 0x10]) 0xFF
      (by decide) (by decide)).1.2 ⟨0xFF, by decide, rfl⟩,
    (containsImpl_true_iff_exists targetScalarWide2 .u8 (.view [0x00, 0xFF, 0x10]) 0xFF
      (by decide) (by decide)).1.2 ⟨0xFF, by decide, rfl⟩,
    (containsImpl_true_iff_exists targetSimdWide4 .u8 (.view [0x00, 0xFF, 0x10]) 0x01
      (by decide) (by decide)).2 (by decide),
    (containsImpl_true_iff_exists targetScalarWide2 .u8 (.view [0x00, 0xFF, 0x10]) 0x01
      (by decide) (by decide)).2 (by decide)⟩

theorem containsImplStdByte_empty (P : Platform) {haystack : Span} (needle : Nat)
    (he : haystack.empty = true) :
    containsImplStdByte P haystack needle
      = { path := .stdByte, calls := [], result := some false } := by
  simp [containsImplStdByte, he]

theorem containsImplStdWide_empty (P : Platform) {haystack : Span} (needle : Nat)
    (he : haystack.empty = true) :
    containsImplStdWide P haystack needle
      = { path := .stdWide, calls := [], result := some false } := by
  simp [containsImplStdWide, he]

theorem containsImplStdFind_empty {haystack : Span} (needle : Nat)
    (he : haystack.empty = true) :
    (containsImplStdFind haystack needle).result = some false := by
  rw [empty_iff_elems] at he
  simp [containsImplStdFind, Span.size, he, stdFind]

theorem containsImplHandwritten_empty (P : Platform) (S : SimdCharPlatform)
    {haystack : Span} (needle : Nat) (he : haystack.empty = true) :
    (containsImplHandwritten P S haystack needle).result = some false := by
  rw [empty_iff_elems] at he
  simp [containsImplHandwritten, reinterpretSpanCast, he, simdAnyOf, anyOfUnrolled,
    anyOfRegisters]

theorem containsImplStd_empty (P : Platform) (T : UIntT) {haystack : Span} (needle : Nat)
    (he : haystack.empty = true) :
    (containsImplStd P T haystack needle).result = some false := by
  unfold containsImplStd
  split
  · rw [containsImplStdByte_empty P needle he]
  · split
    · rw [containsImplStdWide_empty P needle he]
    · exact containsImplStdFind_empty needle he

theorem containsImpl_empty (P : Platform) (T : UIntT) {haystack : Span} (needle : Nat)
    (he : haystack.empty = true) :
    (containsImpl P T haystack needle).result = some false := by
  unfold containsImpl
  split
  · exact containsImplHandwritten_empty P _ needle he
  · exact containsImplStd_empty P T needle he

/-- C2: on an empty haystack (null base pointer or not) every strategy returns
`false`, for every element type, needle and build target: the byte branch, the
wide-character branch and the `std::find` branch of `containsImplStd`,
`containsImplHandwritten`, `containsImplStd` itself and the entry point
`containsImpl`. -/
theorem empty_haystack_false (P : Platform) (S : SimdCharPlatform) (T : UIntT)
    (haystack : Span) (needle : Nat) (he : haystack.empty = true) :
    (containsImplStdByte P haystack needle).result = some false
      ∧ (containsImplStdWide P haystack needle).result = some false
      ∧ (containsImplStdFind haystack needle).result = some false
      ∧ (containsImplHandwritten P S haystack needle).result = some false
      ∧ (containsImplStd P T haystack needle).result = some false
      ∧ (containsImpl P T haystack needle).result = some false :=
  ⟨by rw [containsImplStdByte_empty P needle he],
    by rw [containsImplStdWide_empty P needle he],
    containsImplStdFind_empty needle he,
    containsImplHandwritten_empty P S needle he,
    containsImplStd_empty P T needle he,
    containsImpl_empty P T needle he⟩

/-- Witness of C2: the null view and the empty view with a non-null base, on
a target with and a target without the vector capability. -/
theorem empty_haystack_false_witness :
    Span.null.empty = true ∧ (Span.view []).empty = true
      ∧ (containsImpl targetSimdWide4 .u8 .null 0).result = some false
      ∧ (containsImpl targetScalarWide2 .u16 (.view []) 7).result = some false :=
  ⟨by decide, by decide,
    (empty_haystack_false targetSimdWide4 ⟨16⟩ .u8 .null 0 (by decide)).2.2.2.2.2,
    (empty_haystack_false targetScalarWide2 ⟨16⟩ .u16 (.view []) 7 (by decide)).2.2.2.2.2⟩

/-- C3: for every element type, build target and haystack of that type, and
every index `i` below the size of the haystack, `containsImpl` returns `true`
for the needle `haystack[i]`. -/
theorem containsImpl_presence (P : Platform) (T : UIntT) (haystack : Span)
    (hh : haystack.InRange T) (i : Nat) (hi : i < haystack.size) :
    (containsImpl P T haystack (haystack.elems.get ⟨i, hi⟩)).result = some true := by
  have hm : haystack.elems.get ⟨i, hi⟩ ∈ haystack.elems := List.get_mem _ _ _
  rw [containsImpl_result P T haystack hh (hh _ hm)]
  simp only [hm, decide_True]

/-- Witness of C3: the last element of a three-byte haystack, found by the
vectorized scan. -/
theorem containsImpl_presence_witness :
    (Span.view [0x00, 0xFF, 0x10]).InRange .u8 ∧ 2 < (Span.view [0x00, 0xFF, 0x10]).size
      ∧ (containsImpl targetSimdWide4 .u8 (.view [0x00, 0xFF, 0x10]) 0x10).result
          = some true :=
  ⟨by decide, by decide,
    containsImpl_presence targetSimdWide4 .u8 (.view [0x00, 0xFF, 0x10]) (by decide) 2
      (by decide)⟩

theorem containsImplStdByte_defined (P : Platform) (haystack : Span) (needle : Nat) :
    (∀ c ∈ (containsImplStdByte P haystack needle).calls, c.onNonEmptyView = true)
      ∧ ∃ b, (containsImplStdByte P haystack needle).result = some b := by
  cases haystack with
  | null => simp [containsImplStdByte, Span.empty, Span.size, Span.elems]
  | view es =>
    cases es with
    | nil => simp [containsImplStdByte, Span.empty, Span.size, Span.elems]
    | cons a as =>
      have hlen : (List.map (reinterpretUnit P.charSigned 8) (a :: as)).length
          = (a :: as).length := List.length_map _ _
      simp only [containsImplStdByte, Span.empty, Span.size, Span.elems, Span.data,
        reinterpretData, Option.map_some', memchr]
      rw [if_neg (by simp), ← hlen, memchrFrom_length]
      simp [Call.onNonEmptyView]

theorem containsImplStdWide_defined (P : Platform) (haystack : Span) (needle : Nat) :
    (∀ c ∈ (containsImplStdWide P haystack needle).calls, c.onNonEmptyView = true)
      ∧ ∃ b, (containsImplStdWide P haystack needle).result = some b := by
  cases haystack with
  | null => simp [containsImplStdWide, Span.empty, Span.size, Span.elems]
  | view es =>
    cases es with
    | nil => simp [containsImplStdWide, Span.empty, Span.size, Span.elems]
    | cons a as =>
      have hlen : (List.map (reinterpretUnit P.wcharSigned (8 * P.sizeofWchar)) (a :: as)).length
          = (a :: as).length := List.length_map _ _
      simp only [containsImplStdWide, Span.empty, Span.size, Span.elems, Span.data,
        reinterpretData, Option.map_some', wmemchr]
      rw [if_neg (by simp), ← hlen, wmemchrFrom_length]
      simp [Call.onNonEmptyView]

theorem containsImplStd_defined (P : Platform) (T : UIntT) (haystack : Span) (needle : Nat) :
    (∀ c ∈ (containsImplStd P T haystack needle).calls, c.onNonEmptyView = true)
      ∧ ∃ b, (containsImplStd P T haystack needle).result = some b := by
  unfold containsImplStd
  split
  · exact containsImplStdByte_defined P haystack needle
  · split
    · exact containsImplStdWide_defined P haystack needle
    · simp [containsImplStdFind, Call.onNonEmptyView]

theorem containsImplStd_empty_calls (P : Platform) (T : UIntT) {haystack : Span}
    (needle : Nat) (he : haystack.empty = true) :
    ∀ c ∈ (containsImplStd P T haystack needle).calls, c.isNative = false := by
  unfold containsImplStd
  split
  · rw [containsImplStdByte_empty P needle he]; simp
  · split
    · rw [containsImplStdWide_empty P needle he]; simp
    · simp [containsImplStdFind, Call.isNative]

theorem containsImpl_defined (P : Platform) (T : UIntT) (haystack : Span) (needle : Nat) :
    (∀ c ∈ (containsImpl P T haystack needle).calls, c.onNonEmptyView = true)
      ∧ ∃ b, (containsImpl P T haystack needle).result = some b := by
  unfold containsImpl
  split
  · simp [containsImplHandwritten, Call.onNonEmptyView]
  · exact containsImplStd_defined P T haystack needle

/-- C4: `containsImplStd` never calls `memchr` or `wmemchr` on an empty view:
every call it makes to a native primitive passes a non-null pointer and at
least one unit; an empty haystack (null or not) is answered with `false`
without a call to a native primitive; and both `containsImplStd` and
`containsImpl` return a boolean, never an undefined result, for every element
type, build target, haystack and needle. -/
theorem containsImplStd_never_undefined (P : Platform) (T : UIntT) (haystack : Span)
    (needle : Nat) :
    (∀ c ∈ (containsImplStd P T haystack needle).calls, c.onNonEmptyView = true)
      ∧ (haystack.empty = true →
          (containsImplStd P T haystack needle).result = some false
            ∧ ∀ c ∈ (containsImplStd P T haystack needle).calls, c.isNative = false)
      ∧ (∃ b, (containsImplStd P T haystack needle).result = some b)
      ∧ (∀ c ∈ (containsImpl P T haystack needle).calls, c.onNonEmptyView = true)
      ∧ (∃ b, (containsImpl P T haystack needle).result = some b) :=
  ⟨(containsImplStd_defined P T haystack needle).1,
    fun he => ⟨containsImplStd_empty P T needle he,
      containsImplStd_empty_calls P T needle he⟩,
    (containsImplStd_defined P T haystack needle).2,
    (containsImpl_defined P T haystack needle).1,
    (containsImpl_defined P T haystack needle).2⟩

/-- Witness of C4: the null byte view and the null wide view make no call and
return `false`; a non-empty byte view makes one call of `memchr` with a
non-null pointer. -/
theorem containsImplStd_never_undefined_witness :
    containsImplStd targetScalarWide2 .u8 .null 0
        = { path := .stdByte, calls := [], result := some false }
      ∧ containsImplStd targetScalarWide2 .u16 .null 0
        = { path := .stdWide, calls := [], result := some false }
      ∧ containsImplStd targetScalarWide2 .u8 (.view [0x00, 0xFF, 0x10]) 0xFF
        = { path := .stdByte, calls := [.memchr true 3], result := some true }
      ∧ (∃ b, (containsImpl targetScalarWide2 .u8 .null 0).result = some b) :=
  ⟨by decide, by decide, by decide,
    (containsImplStd_never_undefined targetScalarWide2 .u8 .null 0).2.2.2.2⟩

/-- C5: on bytes the vectorized scan and the native scan agree: for every
haystack and needle of type `uint8_t`, `containsImplHandwritten` returns what
`containsImplStd` (its `memchr` branch) returns, and `containsImpl` returns the
same whether the vector capability is present (it runs
`containsImplHandwritten`) or absent (it runs the byte branch of
`containsImplStd`). -/
theorem handwritten_eq_std_on_bytes (P : Platform) (S : SimdCharPlatform)
    (haystack : Span) (needle : Nat) (hh : haystack.InRange .u8)
    (hn : needle < UIntT.card .u8) :
    (containsImplHandwritten P S haystack needle).result
        = (containsImplStd P .u8 haystack needle).result
      ∧ (containsImplStd P .u8 haystack needle).path = .stdByte
      ∧ containsImpl { P with simdCharPlatform := some S } .u8 haystack needle
        = containsImplHandwritten P S haystack needle
      ∧ containsImpl { P with simdCharPlatform := none } .u8 haystack needle
        = containsImplStd P .u8 haystack needle
      ∧ (containsImpl { P with simdCharPlatform := some S } .u8 haystack needle).result
        = (containsImpl { P with simdCharPlatform := none } .u8 haystack needle).result := by
  have h1 : (containsImplHandwritten P S haystack needle).result
      = (containsImplStd P .u8 haystack needle).result := by
    rw [containsImplHandwritten_result P S haystack hh hn,
      containsImplStd_result P .u8 haystack hh hn]
  have h2 : (containsImplStd P .u8 haystack needle).path = .stdByte := by
    unfold containsImplStd
    rw [if_pos (by decide)]
    unfold containsImplStdByte
    split <;> rfl
  have h3 : containsImpl { P with simdCharPlatform := some S } .u8 haystack needle
      = containsImplHandwritten P S haystack needle :=
    containsImpl_of_handwritten rfl rfl haystack needle
  have h4 : containsImpl { P with simdCharPlatform := none } .u8 haystack needle
      = containsImplStd P .u8 haystack needle :=
    containsImpl_of_not_handwritten (by simp) haystack needle
  exact ⟨h1, h2, h3, h4, by rw [h3, h4, h1]⟩

/-- Witness of C5: the byte haystack `[0x00, 0xFF, 0x10]` and the needle `0xFF`. -/
theorem handwritten_eq_std_on_bytes_witness :
    (Span.view [0x00, 0xFF, 0x10]).InRange .u8 ∧ 0xFF < UIntT.card .u8
      ∧ (containsImplHandwritten targetScalarWide2 ⟨16⟩ (.view [0x00, 0xFF, 0x10]) 0xFF).result
        = (containsImplStd targetScalarWide2 .u8 (.view [0x00, 0xFF, 0x10]) 0xFF).result :=
  ⟨by decide, by decide,
    (handwritten_eq_std_on_bytes targetScalarWide2 ⟨16⟩ (.view [0x00, 0xFF, 0x10]) 0xFF
      (by decide) (by decide)).1⟩

theorem containsImplStdByte_path (P : Platform) (haystack : Span) (needle : Nat) :
    (containsImplStdByte P haystack needle).path = .stdByte := by
  unfold containsImplStdByte
  split <;> rfl

theorem containsImplStdWide_path (P : Platform) (haystack : Span) (needle : Nat) :
    (containsImplStdWide P haystack needle).path = .stdWide := by
  unfold containsImplStdWide
  split <;> rfl

theorem containsImplStd_of_byte {P : Platform} {T : UIntT} (h : T.sizeof = 1)
    (haystack : Span) (needle : Nat) :
    containsImplStd P T haystack needle = containsImplStdByte P haystack needle := by
  unfold containsImplStd
  rw [if_pos h]

theorem containsImplStd_of_wide {P : Platform} {T : UIntT} (h1 : T.sizeof ≠ 1)
    (h2 : T.sizeof = P.sizeofWchar) (haystack : Span) (needle : Nat) :
    containsImplStd P T haystack needle = containsImplStdWide P haystack needle := by
  unfold containsImplStd
  rw [if_neg h1, if_pos h2]

theorem containsImplStd_of_find {P : Platform} {T : UIntT} (h1 : T.sizeof ≠ 1)
    (h2 : T.sizeof ≠ P.sizeofWchar) (haystack : Span) (needle : Nat) :
    containsImplStd P T haystack needle = containsImplStdFind haystack needle := by
  unfold containsImplStd
  rw [if_neg h1, if_neg h2]

/-- C6: for an element type of width 1 or of the width of `wchar_t`, and every
haystack and needle of that type, `containsImplStd` runs a native-width branch
(`memchr` over the buffer read as `char`, or `wmemchr` over the buffer read as
`wchar_t`, with the cast needle) and returns the boolean that the generic
branch, `std::find(begin, end, needle) != end` over the unsigned elements,
returns. -/
theorem native_eq_generic (P : Platform) (T : UIntT) (haystack : Span) (needle : Nat)
    (hT : T.sizeof = 1 ∨ T.sizeof = P.sizeofWchar) (hh : haystack.InRange T)
    (hn : needle < T.card) :
    (containsImplStd P T haystack needle).path.strategy = .nativeWidth
      ∧ (containsImplStd P T haystack needle).result
        = (containsImplStdFind haystack needle).result := by
  constructor
  · by_cases h1 : T.sizeof = 1
    · rw [containsImplStd_of_byte h1, containsImplStdByte_path]; rfl
    · have h2 : T.sizeof = P.sizeofWchar := hT.resolve_left h1
      rw [containsImplStd_of_wide h1 h2, containsImplStdWide_path]; rfl
  · rw [containsImplStd_result P T haystack hh hn, containsImplStdFind_result]

/-- Witness of C6: the 4-byte haystack `[1000000, 2000000, 3000000]` gives
`true` for the needle `2000000` and `false` for `9999999`, in the `wmemchr`
branch of a target with a 4-byte `wchar_t` and in the `std::find` branch of a
target with a 2-byte `wchar_t`. -/
theorem native_eq_generic_witness :
    (UIntT.sizeof .u32 = 1 ∨ UIntT.sizeof .u32 = targetScalarWide4.sizeofWchar)
      ∧ (Span.view [1000000, 2000000, 3000000]).InRange .u32
      ∧ 2000000 < UIntT.card .u32
      ∧ (containsImplStd targetScalarWide4 .u32 (.view [1000000, 2000000, 3000000])
            2000000).result
          = (containsImplStdFind (.view [1000000, 2000000, 3000000]) 2000000).result
      ∧ containsImplStd targetScalarWide4 .u32 (.view [1000000, 2000000, 3000000]) 2000000
          = { path := .stdWide, calls := [.wmemchr true 3], result := some true }
      ∧ containsImplStd targetScalarWide4 .u32 (.view [1000000, 2000000, 3000000]) 9999999
          = { path := .stdWide, calls := [.wmemchr true 3], result := some false }
      ∧ containsImplStd targetScalarWide2 .u32 (.view [1000000, 2000000, 3000000]) 2000000
          = { path := .stdFind, calls := [.find 3], result := some true }
      ∧ containsImplStd targetScalarWide2 .u32 (.view [1000000, 2000000, 3000000]) 9999999
          = { path := .stdFind, calls := [.find 3], result := some false } :=
  ⟨by decide, by decide, by decide,
    (native_eq_generic targetScalarWide4 .u32 (.view [1000000, 2000000, 3000000]) 2000000
      (by decide) (by decide) (by decide)).2,
    by decide, by decide, by decide, by decide⟩

theorem containsImplHandwritten_path (P : Platform) (S : SimdCharPlatform) (haystack : Span)
    (needle : Nat) : (containsImplHandwritten P S haystack needle).path = .handwritten :=
  rfl

theorem containsImplStd_path (P : Platform) (T : UIntT) (haystack : Span) (needle : Nat) :
    (containsImplStd P T haystack needle).path
      = if T.sizeof = 1 then .stdByte
        else if T.sizeof = P.sizeofWchar then .stdWide else .stdFind := by
  unfold containsImplStd
  split
  · exact containsImplStdByte_path P haystack needle
  · split
    · exact containsImplStdWide_path P haystack needle
    · rfl

theorem containsImpl_path (P : Platform) (T : UIntT) (haystack : Span) (needle : Nat) :
    (containsImpl P T haystack needle).path
      = if T.sizeof = 1 ∧ P.simdCharPlatform.isSome = true then .handwritten
        else if T.sizeof = 1 then .stdByte
        else if T.sizeof = P.sizeofWchar then .stdWide else .stdFind := by
  by_cases h : T = .u8 ∧ P.simdCharPlatform.isSome = true
  · obtain ⟨S, hS⟩ := Option.isSome_iff_exists.mp h.2
    have h2 : T.sizeof = 1 ∧ P.simdCharPlatform.isSome = true :=
      ⟨(sizeof_eq_one_iff T).mpr h.1, h.2⟩
    rw [containsImpl_of_handwritten h.1 hS, containsImplHandwritten_path, if_pos h2]
  · have h2 : ¬ (T.sizeof = 1 ∧ P.simdCharPlatform.isSome = true) := by
      rw [sizeof_eq_one_iff]; exact h
    rw [containsImpl_of_not_handwritten h, containsImplStd_path, if_neg h2]

/-- C7: the strategy `containsImpl` runs is a function of the element width,
the vector capability flag and the wide-character width alone: it runs the
vectorized byte scan exactly when the width is 1 and the flag is set; the
native-width scan exactly when that is not so and the width is 1 or the
wide-character width; the generic linear scan exactly when neither holds; for
an element type other than the 1-byte one the whole run is the same whatever
the capability flag. -/
theorem strategy_selection (P : Platform) (T : UIntT) (haystack : Span) (needle : Nat) :
    ((containsImpl P T haystack needle).path.strategy = .vectorizedByte
        ↔ T.sizeof = 1 ∧ P.simdCharPlatform.isSome = true)
      ∧ ((containsImpl P T haystack needle).path.strategy = .nativeWidth
        ↔ ¬ (T.sizeof = 1 ∧ P.simdCharPlatform.isSome = true)
          ∧ (T.sizeof = 1 ∨ T.sizeof = P.sizeofWchar))
      ∧ ((containsImpl P T haystack needle).path.strategy = .genericLinear
        ↔ ¬ (T.sizeof = 1 ∧ P.simdCharPlatform.isSome = true)
          ∧ ¬ (T.sizeof = 1 ∨ T.sizeof = P.sizeofWchar))
      ∧ ((containsImpl P T haystack needle).path = .handwritten
        ↔ hasHandwrittenContains P T = true)
      ∧ (T.sizeof ≠ 1 → ∀ S : Option SimdCharPlatform,
          containsImpl { P with simdCharPlatform := S } T haystack needle
            = containsImpl P T haystack needle) := by
  rw [containsImpl_path, hasHandwrittenContains_iff, ← sizeof_eq_one_iff]
  refine ⟨?_, ?_, ?_, ?_, ?_⟩
  · split_ifs <;> simp_all [Path.strategy]
  · split_ifs <;> simp_all [Path.strategy]
  · split_ifs <;> simp_all [Path.strategy]
  · split_ifs <;> simp_all
  · intro h1 S
    have hT : ¬ T = .u8 := fun h => h1 ((sizeof_eq_one_iff T).mpr h)
    rw [containsImpl_of_not_handwritten (fun h => hT h.1),
      containsImpl_of_not_handwritten (fun h => hT h.1)]
    unfold containsImplStd
    rfl

/-- Witness of C7: the selection for the four widths on a target with a 4-byte
`wchar_t` and the vector capability, and for bytes on one without it. -/
theorem strategy_selection_witness :
    (containsImpl targetSimdWide4 .u8 (.view [1, 2]) 2).path.strategy = .vectorizedByte
      ∧ (containsImpl targetScalarWide4 .u8 (.view [1, 2]) 2).path.strategy = .nativeWidth
      ∧ (containsImpl targetSimdWide4 .u16 (.view [1, 2]) 2).path.strategy = .genericLinear
      ∧ (containsImpl targetSimdWide4 .u32 (.view [1, 2]) 2).path.strategy = .nativeWidth
      ∧ (containsImpl targetSimdWide4 .u64 (.view [1, 2]) 2).path.strategy = .genericLinear
      ∧ (containsImpl targetScalarWide2 .u16 (.view [1, 2]) 2).path.strategy = .nativeWidth :=
  ⟨(strategy_selection targetSimdWide4 .u8 (.view [1, 2]) 2).1.2 (by decide),
    by decide, by decide, by decide, by decide, by decide⟩

/-- C8: an element type whose width is neither 1 nor the width of `wchar_t`
is routed to the generic linear scan: the run of `containsImpl` is the run of
the `std::find` branch of `containsImplStd`, its only collaborator call is the
one to `std::find`, whatever the capability flag; this holds for 8-byte
elements on every target whose `wchar_t` has 2 or 4 bytes; and on the 8-byte
haystack `[10, 20, 30]` with needle `20` that branch returns `true`. -/
theorem non_native_width_routes_to_find (P : Platform) (T : UIntT) (haystack : Span)
    (needle : Nat) :
    (T.sizeof ≠ 1 → T.sizeof ≠ P.sizeofWchar →
        containsImpl P T haystack needle = containsImplStdFind haystack needle)
      ∧ (P.sizeofWchar = 2 ∨ P.sizeofWchar = 4 →
        containsImpl P .u64 haystack needle = containsImplStdFind haystack needle)
      ∧ (containsImplStdFind haystack needle).path = .stdFind
      ∧ (containsImplStdFind haystack needle).calls = [.find haystack.size]
      ∧ (containsImplStdFind (.view [10, 20, 30]) 20).result = some true := by
  have key : ∀ T : UIntT, T.sizeof ≠ 1 → T.sizeof ≠ P.sizeofWchar →
      containsImpl P T haystack needle = containsImplStdFind haystack needle := by
    intro T h1 h2
    have hT : ¬ T = .u8 := fun h => h1 ((sizeof_eq_one_iff T).mpr h)
    rw [containsImpl_of_not_handwritten (fun h => hT h.1), containsImplStd_of_find h1 h2]
  refine ⟨key T, ?_, rfl, rfl, by decide⟩
  intro hw
  apply key .u64 (by decide)
  rcases hw with hw | hw <;> rw [hw] <;> decide

/-- Witness of C8: the 8-byte haystack `[10, 20, 30]` with needle `20`, on a
target with a 4-byte `wchar_t` and the vector capability and on one with a
2-byte `wchar_t` and none. -/
theorem non_native_width_routes_to_find_witness :
    containsImpl targetSimdWide4 .u64 (.view [10, 20, 30]) 20
        = { path := .stdFind, calls := [.find 3], result := some true }
      ∧ containsImpl targetScalarWide2 .u64 (.view [10, 20, 30]) 20
        = { path := .stdFind, calls := [.find 3], result := some true }
      ∧ containsImpl targetScalarWide2 .u32 (.view [10, 20, 30]) 20
        = containsImplStdFind (.view [10, 20, 30]) 20 :=
  ⟨by decide, by decide,
    (non_native_width_routes_to_find targetScalarWide2 .u32 (.view [10, 20, 30]) 20).1
      (by decide) (by decide)⟩

theorem containsImplStd_result_congr (P : Platform) (T : UIntT) {h1 h2 : Span}
    (needle : Nat) (he : h1.elems = h2.elems) :
    (containsImplStd P T h1 needle).result = (containsImplStd P T h2 needle).result := by
  cases h1 with
  | null =>
    cases h2 with
    | null => rfl
    | view es =>
      have hes : es = [] := by simpa [Span.elems] using he.symm
      subst hes
      rw [containsImplStd_empty P T needle (by decide),
        containsImplStd_empty P T needle (by decide)]
  | view es1 =>
    cases h2 with
    | null =>
      have hes : es1 = [] := by simpa [Span.elems] using he
      subst hes
      rw [containsImplStd_empty P T needle (by decide),
        containsImplStd_empty P T needle (by decide)]
    | view es2 =>
      have hes : es1 = es2 := by simpa [Span.elems] using he
      subst hes
      rfl

theorem containsImpl_result_congr (P : Platform) (T : UIntT) {h1 h2 : Span}
    (needle : Nat) (he : h1.elems = h2.elems) :
    (containsImpl P T h1 needle).result = (containsImpl P T h2 needle).result := by
  unfold containsImpl
  split
  · simp only [containsImplHandwritten, reinterpretSpanCast, he]
  · exact containsImplStd_result_congr P T needle he

/-! ## Calls in state-passing style -/

theorem memchrFrom_take (ch : Int) (buf : List Int) (n i : Nat) :
    memchrFrom ch (buf.take n) n i = memchrFrom ch buf n i := by
  induction buf generalizing n i with
  | nil => simp
  | cons x xs ih =>
    cases n with
    | zero => simp [memchrFrom]
    | succ n => simp only [List.take_succ_cons, memchrFrom, ih]

theorem wmemchrFrom_take (ch : Int) (buf : List Int) (n i : Nat) :
    wmemchrFrom ch (buf.take n) n i = wmemchrFrom ch buf n i := by
  induction buf generalizing n i with
  | nil => simp
  | cons x xs ih =>
    cases n with
    | zero => simp [wmemchrFrom]
    | succ n => simp only [List.take_succ_cons, wmemchrFrom, ih]

theorem load_elems (m : Memory) (v : View) : (v.load m).elems = rangeAt m v.base v.size := by
  unfold View.load rangeAt
  cases v.base <;> rfl

theorem load_size_of_within {m : Memory} {v : View} (hv : v.within m = true) :
    (v.load m).size = v.size := by
  unfold View.within at hv
  unfold View.load Span.size
  cases hb : v.base with
  | none =>
    rw [hb] at hv
    simp only [Span.elems, List.length_nil]
    exact (by simpa using hv : v.size = 0).symm
  | some a =>
    rw [hb] at hv
    have : a + v.size ≤ m.length := by simpa using hv
    simp only [Span.elems, List.length_take, List.length_drop]
    omega

theorem containsImplStdByteRun_eq (P : Platform) {m : Memory} {v : View} (needle : Nat)
    (hv : v.within m = true) :
    containsImplStdByteRun P v needle m = (containsImplStdByte P (v.load m) needle, m) := by
  have hsize := load_size_of_within hv
  unfold containsImplStdByteRun containsImplStdByte
  simp only [Span.empty, hsize, memchrRun]
  split
  · rfl
  · next hne =>
    cases hb : v.base with
    | none =>
      have h0 : v.size = 0 := by
        unfold View.within at hv
        rw [hb] at hv
        simpa using hv
      simp [h0] at hne
    | some a =>
      simp only [View.load, hb, Span.data, unitsAt, reinterpretData, Option.map_some', memchr,
        Option.isSome_some, List.map_take]
      rw [memchrFrom_take]

theorem containsImplStdWideRun_eq (P : Platform) {m : Memory} {v : View} (needle : Nat)
    (hv : v.within m = true) :
    containsImplStdWideRun P v needle m = (containsImplStdWide P (v.load m) needle, m) := by
  have hsize := load_size_of_within hv
  unfold containsImplStdWideRun containsImplStdWide
  simp only [Span.empty, hsize, wmemchrRun]
  split
  · rfl
  · next hne =>
    cases hb : v.base with
    | none =>
      have h0 : v.size = 0 := by
        unfold View.within at hv
        rw [hb] at hv
        simpa using hv
      simp [h0] at hne
    | some a =>
      simp only [View.load, hb, Span.data, unitsAt, reinterpretData, Option.map_some', wmemchr,
        Option.isSome_some, List.map_take]
      rw [wmemchrFrom_take]

theorem containsImplStdFindRun_eq {m : Memory} {v : View} (needle : Nat)
    (hv : v.within m = true) :
    containsImplStdFindRun v needle m = (containsImplStdFind (v.load m) needle, m) := by
  unfold containsImplStdFindRun containsImplStdFind
  simp only [stdFindRun, load_size_of_within hv, load_elems]

theorem containsImplStdRun_eq (P : Platform) (T : UIntT) {m : Memory} {v : View}
    (needle : Nat) (hv : v.within m = true) :
    containsImplStdRun P T v needle m = (containsImplStd P T (v.load m) needle, m) := by
  unfold containsImplStdRun containsImplStd
  split
  · exact containsImplStdByteRun_eq P needle hv
  · split
    · exact containsImplStdWideRun_eq P needle hv
    · exact containsImplStdFindRun_eq needle hv

theorem containsImplHandwrittenRun_eq (P : Platform) (S : SimdCharPlatform) {m : Memory}
    {v : View} (needle : Nat) (hv : v.within m = true) :
    containsImplHandwrittenRun P S v needle m
      = (containsImplHandwritten P S (v.load m) needle, m) := by
  have hsize := load_size_of_within hv
  unfold containsImplHandwrittenRun containsImplHandwritten
  simp only [simdAnyOfRun, reinterpretSpanCast, load_elems, List.length_map]
  rw [← load_elems, ← hsize]
  rfl

/-- On a view that lies within the memory, the state-passing run of
`containsImpl` is the run of `containsImpl` on the span the view denotes. -/
theorem containsImplRun_eq (P : Platform) (T : UIntT) {m : Memory} {v : View}
    (needle : Nat) (hv : v.within m = true) :
    containsImplRun P T v needle m = (containsImpl P T (v.load m) needle, m) := by
  unfold containsImplRun containsImpl
  split
  · exact containsImplHandwrittenRun_eq P _ needle hv
  · exact containsImplStdRun_eq P T needle hv

theorem containsImplStdRun_memory (P : Platform) (T : UIntT) (v : View) (needle : Nat)
    (m : Memory) : (containsImplStdRun P T v needle m).2 = m := by
  unfold containsImplStdRun
  split
  · unfold containsImplStdByteRun
    split
    · rfl
    · simp only [memchrRun]
  · split
    · unfold containsImplStdWideRun
      split
      · rfl
      · simp only [wmemchrRun]
    · simp only [containsImplStdFindRun, stdFindRun]

theorem containsImplRun_memory (P : Platform) (T : UIntT) (v : View) (needle : Nat)
    (m : Memory) : (containsImplRun P T v needle m).2 = m := by
  unfold containsImplRun
  split
  · simp only [containsImplHandwrittenRun, simdAnyOfRun]
  · exact containsImplStdRun_memory P T v needle m

theorem containsImplRuns_memory (P : Platform) (between : List (UIntT × View × Nat))
    (m : Memory) : containsImplRuns P between m = m := by
  induction between generalizing m with
  | nil => rfl
  | cons c rest ih =>
    obtain ⟨T, v, needle⟩ := c
    simp only [containsImplRuns]
    rw [containsImplRun_memory, ih]

/-- C9: `containsImpl`, run in state-passing style against the memory of the
caller, is a function of the haystack contents and the needle only. Every
branch of the header leaves the memory as it found it, so a call leaves the
contents of the haystack unchanged; after any sequence of calls (of any element
types, views and needles) in between the memory is what it was and the same
call makes the same run; and two calls whose views lie within their memories
and have equal contents (at whatever addresses, null or not) return the same
boolean for the same needle, namely the one `containsImpl` returns on the span
the view denotes. -/
theorem containsImpl_deterministic (P : Platform) (T : UIntT) (m : Memory) (v : View)
    (needle : Nat) (between : List (UIntT × View × Nat)) :
    (containsImplRun P T v needle m).2 = m
      ∧ v.load (containsImplRun P T v needle m).2 = v.load m
      ∧ containsImplRuns P between m = m
      ∧ containsImplRun P T v needle (containsImplRuns P between m)
        = containsImplRun P T v needle m
      ∧ (v.within m = true →
          (containsImplRun P T v needle m).1 = containsImpl P T (v.load m) needle)
      ∧ (∀ (m2 : Memory) (v2 : View), v.within m = true → v2.within m2 = true →
          (v2.load m2).elems = (v.load m).elems →
          (containsImplRun P T v2 needle m2).1.result
            = (containsImplRun P T v needle m).1.result) := by
  refine ⟨containsImplRun_memory P T v needle m, ?_, containsImplRuns_memory P between m,
    ?_, ?_, ?_⟩
  · rw [containsImplRun_memory]
  · rw [containsImplRuns_memory]
  · intro hv
    rw [containsImplRun_eq P T needle hv]
  · intro m2 v2 hv hv2 he
    rw [containsImplRun_eq P T needle hv, containsImplRun_eq P T needle hv2]
    exact containsImpl_result_congr P T needle he

/-- Witness of C9: the same byte contents at two addresses of two memories,
with calls on other views in between, and the null view against an empty view
with a non-null base. -/
theorem containsImpl_deterministic_witness :
    containsImplRun targetSimdWide4 .u8 ⟨some 1, 3⟩ 255 [7, 0, 255, 16, 9]
        = ({ path := .handwritten, calls := [.simdAnyOf 3], result := some true },
            [7, 0, 255, 16, 9])
      ∧ containsImplRun targetScalarWide2 .u8 ⟨some 1, 3⟩ 255 [7, 0, 255, 16, 9]
        = ({ path := .stdByte, calls := [.memchr true 3], result := some true },
            [7, 0, 255, 16, 9])
      ∧ containsImplRun targetSimdWide4 .u8 ⟨some 1, 3⟩ 255
          (containsImplRuns targetSimdWide4
            [(.u8, ⟨some 0, 5⟩, 9), (.u32, ⟨none, 0⟩, 1), (.u8, ⟨some 1, 3⟩, 255)]
            [7, 0, 255, 16, 9])
        = containsImplRun targetSimdWide4 .u8 ⟨some 1, 3⟩ 255 [7, 0, 255, 16, 9]
      ∧ (containsImplRun targetSimdWide4 .u8 ⟨some 0, 3⟩ 255 [0, 255, 16]).1.result
        = (containsImplRun targetSimdWide4 .u8 ⟨some 1, 3⟩ 255 [7, 0, 255, 16, 9]).1.result
      ∧ (containsImplRun targetScalarWide2 .u8 ⟨none, 0⟩ 0 []).1.result
        = (containsImplRun targetScalarWide2 .u8 ⟨some 2, 0⟩ 0 [1, 2, 3]).1.result :=
  ⟨by decide, by decide,
    (containsImpl_deterministic targetSimdWide4 .u8 [7, 0, 255, 16, 9] ⟨some 1, 3⟩ 255
      [(.u8, ⟨some 0, 5⟩, 9), (.u32, ⟨none, 0⟩, 1), (.u8, ⟨some 1, 3⟩, 255)]).2.2.2.1,
    (containsImpl_deterministic targetSimdWide4 .u8 [7, 0, 255, 16, 9] ⟨some 1, 3⟩ 255
      []).2.2.2.2.2 [0, 255, 16] ⟨some 0, 3⟩ (by decide) (by decide) (by decide),
    (containsImpl_deterministic targetScalarWide2 .u8 [1, 2, 3] ⟨some 2, 0⟩ 0
      []).2.2.2.2.2 [] ⟨none, 0⟩ (by decide) (by decide) (by decide)⟩

theorem staticCast_emod (signed : Bool) {bits v : Nat} (hb : 0 < bits) (hv : v < 2 ^ bits) :
    staticCast signed bits v % 2 ^ bits = (v : Int) := by
  have h : (v : Int) < 2 ^ bits := by exact_mod_cast hv
  cases signed
  · rw [staticCast_unsigned hv]
    exact Int.emod_eq_of_lt (by omega) h
  · by_cases hlo : 2 ^ (bits - 1) ≤ v
    · rw [staticCast_signed_high hb hlo hv, Int.sub_emod, Int.emod_self, Int.sub_zero,
        Int.emod_emod]
      exact Int.emod_eq_of_lt (by omega) h
    · rw [staticCast_signed_low hb (Nat.lt_of_not_le hlo)]
      exact Int.emod_eq_of_lt (by omega) h

theorem reinterpretUnit_emod_pow (signed : Bool) {bits e : Nat} (hb : 0 < bits)
    (he : e < 2 ^ bits) : reinterpretUnit signed bits e % 2 ^ bits = (e : Int) := by
  rw [← staticCast_eq_reinterpretUnit signed hb he]
  exact staticCast_emod signed hb he

theorem staticCast_range (signed : Bool) {bits v : Nat} (hb : 0 < bits) (hv : v < 2 ^ bits) :
    (if signed then (-(2 : Int) ^ (bits - 1)) else 0) ≤ staticCast signed bits v
      ∧ staticCast signed bits v < (if signed then (2 : Int) ^ (bits - 1) else 2 ^ bits) := by
  have h : (v : Int) < 2 ^ bits := by exact_mod_cast hv
  have h2 := two_pow_pred_double hb
  have hpos : (0 : Int) < 2 ^ (bits - 1) := by positivity
  cases signed
  · rw [staticCast_unsigned hv]
    simp only [Bool.false_eq_true, if_false]
    omega
  · simp only [if_true]
    by_cases hlo : 2 ^ (bits - 1) ≤ v
    · have hl : (2 : Int) ^ (bits - 1) ≤ v := by exact_mod_cast hlo
      rw [staticCast_signed_high hb hlo hv]
      omega
    · have hl : (v : Int) < 2 ^ (bits - 1) := by exact_mod_cast Nat.lt_of_not_le hlo
      rw [staticCast_signed_low hb (Nat.lt_of_not_le hlo)]
      omega

/-- C10: for a unit type of `w >= 1` bytes, signed or not, and unsigned values
`e` (an element) and `n` (the needle) of that width: `static_cast` of the
needle is its reduction modulo `2 ^ (8 * w)` into the range of the unit type,
reading the element through the reinterpreted pointer keeps its bit pattern,
and the unit comparison of `wmemchr`, the lane comparison of
`SimdCharPlatform::equal` and (for `w = 1`) the unit comparison of `memchr`
succeed on the reinterpreted element and the cast needle if and only if
`e = n`. -/
theorem needle_cast_keeps_bit_pattern (signed : Bool) (w e n : Nat) (hw : 0 < w)
    (he : e < 2 ^ (8 * w)) (hn : n < 2 ^ (8 * w)) :
    ((if signed then (-(2 : Int) ^ (8 * w - 1)) else 0) ≤ staticCast signed (8 * w) n
        ∧ staticCast signed (8 * w) n
          < (if signed then (2 : Int) ^ (8 * w - 1) else 2 ^ (8 * w)))
      ∧ staticCast signed (8 * w) n % 2 ^ (8 * w) = (n : Int)
      ∧ reinterpretUnit signed (8 * w) e % 2 ^ (8 * w) = (e : Int)
      ∧ (wmemchrUnitEq (reinterpretUnit signed (8 * w) e) (staticCast signed (8 * w) n) = true
        ↔ e = n)
      ∧ (SimdCharPlatform.equal [reinterpretUnit signed (8 * w) e]
            (staticCast signed (8 * w) n) = [true]
        ↔ e = n)
      ∧ (w = 1 →
        (memchrUnitEq (reinterpretUnit signed 8 e) (staticCast signed 8 n) = true ↔ e = n)) := by
  have hb : 0 < 8 * w := by omega
  have hwm := wmemchrUnitEq_reinterpret signed hb he hn
  refine ⟨staticCast_range signed hb hn, staticCast_emod signed hb hn,
    reinterpretUnit_emod_pow signed hb he, ?_, ?_, ?_⟩
  · rw [hwm]; simp
  · have : SimdCharPlatform.equal [reinterpretUnit signed (8 * w) e]
        (staticCast signed (8 * w) n)
        = [wmemchrUnitEq (reinterpretUnit signed (8 * w) e) (staticCast signed (8 * w) n)] :=
      rfl
    rw [this, hwm]; simp
  · intro h1
    subst h1
    rw [memchrUnitEq_reinterpret signed (by simpa using he) (by simpa using hn)]
    simp

/-- Witness of C10: the byte `0xFF` as element and as needle, for a signed
`char`: the cast needle is `-1`, the element reads as `-1`, and `memchr`
compares both as `255`. -/
theorem needle_cast_keeps_bit_pattern_witness :
    0 < 1 ∧ 0xFF < 2 ^ (8 * 1) ∧ staticCast true 8 0xFF = -1
      ∧ reinterpretUnit true 8 0xFF = -1
      ∧ (memchrUnitEq (reinterpretUnit true 8 0xFF) (staticCast true 8 0xFF) = true
        ↔ 0xFF = 0xFF)
      ∧ memchrUnitEq (reinterpretUnit true 8 0x7F) (staticCast true 8 0xFF) = false :=
  ⟨by decide, by decide, by decide, by decide,
    (needle_cast_keeps_bit_pattern true 1 0xFF 0xFF (by decide) (by decide)
      (by decide)).2.2.2.2.2 rfl,
    by decide⟩

/-! ## The generic linear scan -/

theorem stdFind_le_length (l : List Nat) (v : Nat) : stdFind l v ≤ l.length := by
  induction l with
  | nil => simp [stdFind]
  | cons x xs ih =>
    simp only [stdFind, List.length_cons]
    split <;> omega

theorem stdFind_take_ne (l : List Nat) (v : Nat) : ∀ e ∈ l.take (stdFind l v), e ≠ v := by
  induction l with
  | nil => simp [stdFind]
  | cons x xs ih =>
    by_cases hx : x = v
    · simp [stdFind, hx]
    · intro e he
      simp only [stdFind, beq_iff_eq, hx, if_false, List.take_succ_cons, List.mem_cons] at he
      rcases he with he | he
      · rw [he]; exact hx
      · exact ih e he

theorem stdFind_get (l : List Nat) (v : Nat) (h : stdFind l v < l.length) :
    l.get ⟨stdFind l v, h⟩ = v := by
  induction l with
  | nil => simp [stdFind] at h
  | cons x xs ih =>
    by_cases hx : x = v
    · simp [stdFind, hx]
    · have hs : stdFind (x :: xs) v = stdFind xs v + 1 := by simp [stdFind, hx]
      have h2 : stdFind xs v < xs.length := by
        rw [hs, List.length_cons] at h; omega
      have := ih h2
      simp only [List.get_eq_getElem] at this ⊢
      simp only [hs, List.getElem_cons_succ]
      exact this

theorem stdFind_cons_of_ne {x v : Nat} (l : List Nat) (hx : ¬ x = v) :
    stdFind (x :: l) v = stdFind l v + 1 := by
  simp [stdFind, hx]

theorem stdFind_append_of_not_mem (pre : List Nat) (rest : List Nat) (v : Nat)
    (hpre : v ∉ pre) : stdFind (pre ++ rest) v = pre.length + stdFind rest v := by
  induction pre with
  | nil => simp
  | cons x xs ih =>
    have hx : ¬ x = v := fun h => hpre (h ▸ List.mem_cons_self x xs)
    have hxs : v ∉ xs := fun h => hpre (List.mem_cons_of_mem x h)
    rw [List.cons_append, stdFind_cons_of_ne _ hx, ih hxs, List.length_cons]
    omega

theorem stdFind_append_of_mem (pre : List Nat) (rest : List Nat) (v : Nat)
    (hpre : v ∈ pre) : stdFind (pre ++ rest) v = stdFind pre v := by
  induction pre with
  | nil => simp at hpre
  | cons x xs ih =>
    by_cases hx : x = v
    · simp [stdFind, hx]
    · have hxs : v ∈ xs := by
        rcases List.mem_cons.mp hpre with h | h
        · exact absurd h.symm hx
        · exact h
      rw [List.cons_append, stdFind_cons_of_ne _ hx, stdFind_cons_of_ne _ hx, ih hxs]

theorem stdFind_eq_length_of_not_mem (l : List Nat) (v : Nat) (h : v ∉ l) :
    stdFind l v = l.length := by
  have := stdFind_append_of_not_mem l [] v h
  simpa [stdFind] using this

/-- C11: the `std::find` branch of `containsImplStd` scans from the first
element to the last and stops at the first element equal to the needle: the
iterator `std::find` returns lies within the range, no element before it
equals the needle, and the element at it (when it is not `end`) does. So on a
haystack `pre ++ [needle] ++ post` the iterator does not depend on `post`, it
is at most `pre.length`, and the branch returns `true`; when no element equals
the needle the iterator is `end` and the branch returns `false`; and the empty
haystack goes through the same call of `std::find` (over zero elements), which
returns `end`, so that the branch returns `false`. -/
theorem containsImplStdFind_linear_scan (haystack : Span) (pre post : List Nat)
    (needle : Nat) :
    (stdFind haystack.elems needle ≤ haystack.size
        ∧ (∀ e ∈ haystack.elems.take (stdFind haystack.elems needle), e ≠ needle)
        ∧ (∀ h : stdFind haystack.elems needle < haystack.elems.length,
            haystack.elems.get ⟨stdFind haystack.elems needle, h⟩ = needle))
      ∧ (stdFind (pre ++ [needle] ++ post) needle = stdFind (pre ++ [needle]) needle
        ∧ stdFind (pre ++ [needle] ++ post) needle ≤ pre.length
        ∧ (containsImplStdFind (.view (pre ++ [needle] ++ post)) needle).result = some true)
      ∧ ((∀ e ∈ haystack.elems, e ≠ needle) →
          stdFind haystack.elems needle = haystack.size
            ∧ (containsImplStdFind haystack needle).result = some false)
      ∧ (haystack.empty = true →
          stdFind haystack.elems needle = haystack.size
            ∧ containsImplStdFind haystack needle
              = { path := .stdFind, calls := [.find 0], result := some false }) := by
  refine ⟨⟨stdFind_le_length _ _, stdFind_take_ne _ _, stdFind_get _ _⟩, ⟨?_, ?_, ?_⟩, ?_, ?_⟩
  · rw [List.append_assoc]
    by_cases hp : needle ∈ pre
    · rw [stdFind_append_of_mem pre _ needle hp, stdFind_append_of_mem pre _ needle hp]
    · rw [stdFind_append_of_not_mem pre _ needle hp, stdFind_append_of_not_mem pre _ needle hp]
      simp [stdFind]
  · rw [List.append_assoc]
    by_cases hp : needle ∈ pre
    · rw [stdFind_append_of_mem pre _ needle hp]
      exact stdFind_le_length pre needle
    · rw [stdFind_append_of_not_mem pre _ needle hp]
      simp [stdFind]
  · rw [containsImplStdFind_result]
    simp [Span.elems]
  · intro hne
    have hm : needle ∉ haystack.elems := fun hm => hne needle hm rfl
    refine ⟨stdFind_eq_length_of_not_mem _ _ hm, ?_⟩
    rw [containsImplStdFind_result]
    simp [hm]
  · intro he
    rw [empty_iff_elems] at he
    simp [containsImplStdFind, Span.size, he, stdFind]

/-- Witness of C11: the needle `20` is found at offset 1 whatever follows it,
is not found in `[10, 30]`, and the null view makes the one call of
`std::find` over zero elements. -/
theorem containsImplStdFind_linear_scan_witness :
    stdFind ([10] ++ [20] ++ [30, 20, 40]) 20 = 1
      ∧ stdFind ([10] ++ [20] ++ []) 20 = 1
      ∧ (containsImplStdFind (.view ([10] ++ [20] ++ [30, 20, 40])) 20).result = some true
      ∧ containsImplStdFind (.view [10, 30]) 20
        = { path := .stdFind, calls := [.find 2], result := some false }
      ∧ containsImplStdFind .null 20
        = { path := .stdFind, calls := [.find 0], result := some false } :=
  ⟨by decide, by decide,
    (containsImplStdFind_linear_scan .null [10] [30, 20, 40] 20).2.1.2.2,
    by decide, by decide⟩

/-! ## Chunking of the vectorized scan -/

theorem scanEachOnce_equal (range : List Int) (c : Int) :
    scanEachOnce range (fun x => SimdCharPlatform.equal x c)
      = range.any (fun lane => lane == c) := by
  unfold scanEachOnce
  apply any_congr_mem
  intro x _
  rw [anyLane_equal]
  simp

/-- C12: with `simdAnyOf` as the spec describes it (full register-width chunks
tested in groups of the unroll factor, then one by one, then the remainder
unit by unit), for every register width `W` and unroll factor `U` (so for all
`W >= 1` and `U >= 1`), every range and every wanted value, the any-of with the
lane-equality predicate is the scan that tests every unit once; hence for every
byte haystack of any length and every needle, `simdAnyOf` over the
reinterpreted haystack and `containsImplHandwritten` (which passes `U = 4`)
return exactly whether some byte equals the needle. -/
theorem simdAnyOf_chunking_independent (P : Platform) (W U : Nat) (range : List Int)
    (c : Int) (haystack : Span) (needle : Nat) (hh : haystack.InRange .u8)
    (hn : needle < UIntT.card .u8) :
    simdAnyOf W U range (fun x => SimdCharPlatform.equal x c)
        = scanEachOnce range (fun x => SimdCharPlatform.equal x c)
      ∧ simdAnyOf W U (reinterpretSpanCast P.charSigned haystack)
          (fun x => SimdCharPlatform.equal x (staticCast P.charSigned 8 needle))
        = haystack.elems.any (fun e => e == needle)
      ∧ (containsImplHandwritten P { cardinal := W } haystack needle).result
        = some (haystack.elems.any (fun e => e == needle)) := by
  refine ⟨?_, ?_, ?_⟩
  · rw [simdAnyOf_equal, scanEachOnce_equal]
  · rw [simdAnyOf_equal, reinterpretSpanCast, any_laneEq P.charSigned haystack.elems hh hn,
      any_beq_eq_decide_mem]
  · rw [containsImplHandwritten_result P _ haystack hh hn, any_beq_eq_decide_mem]

/-- Witness of C12: a haystack of seven bytes with the needle in the last
place, for a 4-lane register with unroll factor 4 (shorter than one group), a
2-lane register with unroll factor 1 and a 3-lane register with unroll factor
2 (one group and a remainder of one), and a haystack shorter than the
register. -/
theorem simdAnyOf_chunking_independent_witness :
    (Span.view [1, 2, 3, 4, 5, 6, 0xFF]).InRange .u8 ∧ 0xFF < UIntT.card .u8
      ∧ simdAnyOf 4 4 (reinterpretSpanCast true (.view [1, 2, 3, 4, 5, 6, 0xFF]))
          (fun x => SimdCharPlatform.equal x (staticCast true 8 0xFF)) = true
      ∧ simdAnyOf 2 1 (reinterpretSpanCast true (.view [1, 2, 3, 4, 5, 6, 0xFF]))
          (fun x => SimdCharPlatform.equal x (staticCast true 8 0xFF)) = true
      ∧ simdAnyOf 3 2 (reinterpretSpanCast true (.view [1, 2, 3, 4, 5, 6, 0xFF]))
          (fun x => SimdCharPlatform.equal x (staticCast true 8 0xFF)) = true
      ∧ simdAnyOf 3 2 (reinterpretSpanCast true (.view [1, 2, 3, 4, 5, 6, 0xFF]))
          (fun x => SimdCharPlatform.equal x (staticCast true 8 7)) = false
      ∧ (containsImplHandwritten targetSimdWide4 { cardinal := 16 } (.view [1, 0xFF])
          0xFF).result = some true :=
  ⟨by decide, by decide,
    (simdAnyOf_chunking_independent targetSimdWide4 4 4 [] 0 (.view [1, 2, 3, 4, 5, 6, 0xFF])
      0xFF (by decide) (by decide)).2.1.trans (by decide),
    by decide, by decide, by decide, by decide⟩

/-! ## Algebra of the haystack -/

/-- C13: for every element type, build target and needle, and haystacks `a`,
`b` and `ab` of that type where `ab` holds the elements of `a` followed by
those of `b`: `containsImpl` on `ab` returns the disjunction of what it
returns on `a` and on `b`; so a match in the prefix or in the suffix is a match
in the whole, and a match in the whole is a match in one of the two parts. -/
theorem containsImpl_append (P : Platform) (T : UIntT) (a b ab : Span) (needle : Nat)
    (hab : ab.elems = a.elems ++ b.elems) (ha : a.InRange T) (hb : b.InRange T)
    (hn : needle < T.card) :
    (∃ x y, (containsImpl P T a needle).result = some x
        ∧ (containsImpl P T b needle).result = some y
        ∧ (containsImpl P T ab needle).result = some (x || y))
      ∧ ((containsImpl P T a needle).result = some true →
          (containsImpl P T ab needle).result = some true)
      ∧ ((containsImpl P T b needle).result = some true →
          (containsImpl P T ab needle).result = some true)
      ∧ ((containsImpl P T ab needle).result = some true →
          (containsImpl P T a needle).result = some true
            ∨ (containsImpl P T b needle).result = some true) := by
  have hr : ab.InRange T := by
    intro e he
    rw [hab, List.mem_append] at he
    rcases he with he | he
    · exact ha e he
    · exact hb e he
  rw [containsImpl_result P T a ha hn, containsImpl_result P T b hb hn,
    containsImpl_result P T ab hr hn, hab]
  refine ⟨⟨_, _, rfl, rfl, ?_⟩, ?_, ?_, ?_⟩
  · simp [List.mem_append]
  · simp only [Option.some.injEq, decide_eq_true_eq, List.mem_append]
    exact fun h => Or.inl h
  · simp only [Option.some.injEq, decide_eq_true_eq, List.mem_append]
    exact fun h => Or.inr h
  · simp only [Option.some.injEq, decide_eq_true_eq, List.mem_append]
    exact fun h => h

/-- Witness of C13: the byte haystack `[0x00, 0xFF, 0x10]` split after its
first element, on a target with and one without the vector capability; the
needle `0xFF` is in the suffix only. -/
theorem containsImpl_append_witness :
    (Span.view [0x00, 0xFF, 0x10]).elems = (Span.view [0x00]).elems ++ (Span.view [0xFF, 0x10]).elems
      ∧ (Span.view [0x00]).InRange .u8 ∧ (Span.view [0xFF, 0x10]).InRange .u8
      ∧ 0xFF < UIntT.card .u8
      ∧ (containsImpl targetSimdWide4 .u8 (.view [0x00]) 0xFF).result = some false
      ∧ (containsImpl targetSimdWide4 .u8 (.view [0xFF, 0x10]) 0xFF).result = some true
      ∧ (containsImpl targetSimdWide4 .u8 (.view [0x00, 0xFF, 0x10]) 0xFF).result = some true
      ∧ (containsImpl targetScalarWide2 .u8 (.view [0x00, 0xFF, 0x10]) 0xFF).result
        = some true :=
  ⟨by decide, by decide, by decide, by decide, by decide, by decide,
    (containsImpl_append targetSimdWide4 .u8 (.view [0x00]) (.view [0xFF, 0x10])
      (.view [0x00, 0xFF, 0x10]) 0xFF (by decide) (by decide) (by decide) (by decide)).2.2.1
      (by decide),
    (containsImpl_append targetScalarWide2 .u8 (.view [0x00]) (.view [0xFF, 0x10])
      (.view [0x00, 0xFF, 0x10]) 0xFF (by decide) (by decide) (by decide) (by decide)).2.2.1
      (by decide)⟩

/-- C14: for every element type, build target and needle, `containsImpl`
returns the same boolean on two haystacks of that type that hold the same set
of element values; in particular on a haystack and any permutation of it, its
reversal, and the haystack followed by a repetition of itself. -/
theorem containsImpl_same_values (P : Platform) (T : UIntT) (haystack : Span)
    (needle : Nat) (hh : haystack.InRange T) (hn : needle < T.card) :
    (∀ other : Span, (∀ e, e ∈ other.elems ↔ e ∈ haystack.elems) →
        (containsImpl P T other needle).result = (containsImpl P T haystack needle).result)
      ∧ (∀ l : List Nat, l.Perm haystack.elems →
        (containsImpl P T (.view l) needle).result
          = (containsImpl P T haystack needle).result)
      ∧ (containsImpl P T (.view haystack.elems.reverse) needle).result
        = (containsImpl P T haystack needle).result
      ∧ (containsImpl P T (.view (haystack.elems ++ haystack.elems)) needle).result
        = (containsImpl P T haystack needle).result := by
  have key : ∀ other : Span, (∀ e, e ∈ other.elems ↔ e ∈ haystack.elems) →
      (containsImpl P T other needle).result
        = (containsImpl P T haystack needle).result := by
    intro other hset
    have hr : other.InRange T := fun e he => hh e ((hset e).mp he)
    rw [containsImpl_result P T other hr hn, containsImpl_result P T haystack hh hn]
    simp only [hset needle]
  refine ⟨key, ?_, ?_, ?_⟩
  · intro l hl
    exact key (.view l) (fun e => hl.mem_iff)
  · exact key _ (fun e => by simp [Span.elems])
  · exact key _ (fun e => by simp [Span.elems])

/-- Witness of C14: the byte haystack `[0x00, 0xFF, 0x10]` against a
rearrangement with repeated elements, and against its reversal. -/
theorem containsImpl_same_values_witness :
    (Span.view [0x00, 0xFF, 0x10]).InRange .u8 ∧ 0xFF < UIntT.card .u8
      ∧ (containsImpl targetSimdWide4 .u8 (.view [0x10, 0x10, 0x00, 0xFF, 0x00]) 0xFF).result
        = (containsImpl targetSimdWide4 .u8 (.view [0x00, 0xFF, 0x10]) 0xFF).result
      ∧ (containsImpl targetScalarWide2 .u8 (.view [0x10, 0xFF, 0x00]) 0xFF).result
        = (containsImpl targetScalarWide2 .u8 (.view [0x00, 0xFF, 0x10]) 0xFF).result :=
  ⟨by decide, by decide,
    (containsImpl_same_values targetSimdWide4 .u8 (.view [0x00, 0xFF, 0x10]) 0xFF (by decide)
      (by decide)).1 (.view [0x10, 0x10, 0x00, 0xFF, 0x00])
      (fun e => by
        simp only [Span.elems, List.mem_cons, List.mem_singleton, List.not_mem_nil, or_false]
        omega),
    (containsImpl_same_values targetScalarWide2 .u8 (.view [0x00, 0xFF, 0x10]) 0xFF
      (by decide) (by decide)).2.2.1⟩

end folly.simd.detail
